import Mathlib

namespace Hal

/-! ## Definitions -/

/-- Value of `sizeof(size_t)` on the 64-bit platforms the source targets. -/
def wordSize : Nat := 8

/-- Modulus of `size_t` arithmetic. -/
def M64 : Nat := 2 ^ 64

/-- Source `MMAP_NULL_OFFSET` (mmapFile.h line 20): the null offset sentinel. -/
def MMAP_NULL_OFFSET : Nat := 0

/-- The store state visible to the operations under verification: the
header fields `nextOffset` and `rootOffset`, together with the handle's
mapping base address, file size and access mode (`_basePtr`, `_fileSize`,
`_mode & WRITE_ACCESS`). -/
structure MMapState where
  basePtr : Nat
  nextOffset : Nat
  rootOffset : Nat
  fileSize : Nat
  writeAccess : Bool
deriving DecidableEq

/-- Source `MMapFile::alignRound` (mmapFile.h lines 80-82):
`((size + (sizeof(size_t) - 1)) / sizeof(size_t)) * sizeof(size_t)`.
The sum `size + (sizeof(size_t) - 1)` is `size_t` arithmetic, hence the
modulus; quotient and product cannot wrap. -/
def alignRound (size : Nat) : Nat :=
  ((size + (wordSize - 1)) % M64) / wordSize * wordSize

/-- Modelled from the spec: `validateWriteAccess` (declared in mmapFile.h,
body outside `src/`) fails unless the store was opened read-write
("alloc(size, isRoot=false) — write-mode only"). -/
def validateWriteAccess (s : MMapState) : Bool := s.writeAccess

/-- Source `MMapFile::allocMem` (mmapFile.h lines 150-161).  The C++
member throws on failure leaving the object as it was; the embedding
returns the error together with the unchanged state. -/
def allocMem (s : MMapState) (size : Nat) (isRoot : Bool) :
    Except String Nat × MMapState :=
  if validateWriteAccess s = false then
    (Except.error "mmap file not opened with write access", s)
  else if (s.nextOffset + size) % M64 > s.fileSize then
    (Except.error ("mmap file is full, specify file size larger than " ++
      toString s.fileSize), s)
  else
    (Except.ok s.nextOffset,
     { s with
       nextOffset := (s.nextOffset + alignRound size) % M64,
       rootOffset := if isRoot then s.nextOffset else s.rootOffset })

/-- Source `MMapFile::toPtr` (mmapFile.h lines 138-141): after the
(no-op or prefetching) `fetchIfNeeded`, it returns `_basePtr + offset`.
The source performs no check whatsoever on `offset`; a debug assertion,
were one present, would be modelled as `none` (compare `getRootOffset`). -/
def toPtr (s : MMapState) (offset _accessSize : Nat) : Option Nat :=
  some (s.basePtr + offset)

/-- Source `MMapFile::getRootOffset` (mmapFile.h lines 122-125):
`assert(_header->rootOffset > 0); return _header->rootOffset;`.
The debug assertion is modelled as `none`. -/
def getRootOffset (s : MMapState) : Option Nat :=
  if s.rootOffset > 0 then some s.rootOffset else none

/-- Claimed behaviour of `toPtr` (written from the claim, to be compared
with the source's `toPtr`): the precondition `offset < nextOffset` is
detected by a debug assertion. -/
def toPtrClaimed (s : MMapState) (offset _accessSize : Nat) : Option Nat :=
  if offset < s.nextOffset then some (s.basePtr + offset) else none

/-- A session of `allocMem` calls: `some (offsets, finalState)` when every
call succeeds, `none` as soon as one fails. -/
def allocSession (s : MMapState) : List (Nat × Bool) → Option (List Nat × MMapState)
  | [] => some ([], s)
  | c :: cs =>
    match allocMem s c.1 c.2 with
    | (Except.ok o, s1) => (allocSession s1 cs).map (fun r => (o :: r.1, r.2))
    | (Except.error _, _) => none

/-- The root offset left by a sequence of (returned offset, isRoot)
pairs: the last root-flagged offset, or the initial root offset. -/
def lastRoot (init : Nat) (l : List (Nat × Bool)) : Nat :=
  l.foldl (fun acc p => if p.2 then p.1 else acc) init

/-- Concrete store used as the C1 counterexample: a fresh 9-byte file. -/
def c1State : MMapState :=
  { basePtr := 0, nextOffset := 0, rootOffset := 0, fileSize := 9, writeAccess := true }

/-- Concrete store used as the C3 counterexample. -/
def c3State : MMapState :=
  { basePtr := 0, nextOffset := 8, rootOffset := 0, fileSize := 100, writeAccess := true }

/-- Concrete store used as the C4 counterexample. -/
def c4State : MMapState :=
  { basePtr := 4096, nextOffset := 8, rootOffset := 0, fileSize := 64, writeAccess := false }

/-- Concrete store used by witnesses of the mapped-store theorems. -/
def wState : MMapState :=
  { basePtr := 0, nextOffset := 0, rootOffset := 0, fileSize := 32, writeAccess := true }

/-- A block of a BED record: `BedBlock` with `_start` (`hal_index_t`) and
`_length` (`hal_size_t`).  The struct itself lives in halBedLine.h outside
`src/`; its two fields are those the lift-over source reads and writes. -/
structure BedBlock where
  start : Int
  length : Nat
deriving DecidableEq

/-- Modelled from the spec: the structured-alignment info attached to a
record (`PSLInfo`, declared in halBedLine.h outside `src/`), with the
fields the lift-over source uses.  The source keeps a vector `_psl`
asserted to hold exactly one element, modelled here as a single field of
`BedLine`. -/
structure PSLInfo where
  matches_ : Nat
  misMatches : Nat
  repMatches : Nat
  nCount : Nat
  qNumInsert : Nat
  qBaseInsert : Nat
  tNumInsert : Nat
  tBaseInsert : Nat
  qStrand : Char
  qEnd : Nat
  qBlockStarts : List Int
deriving DecidableEq

/-- Modelled from the spec: the interval record consumed and produced by
the lift-over engine (`BedLine`, declared in halBedLine.h outside `src/`),
restricted to the fields the lift-over source touches. -/
structure BedLine where
  chrName : String
  start : Int
  end_ : Int
  strand : Char
  srcStart : Int
  thickStart : Int
  thickEnd : Int
  bedType : Int
  blocks : List BedBlock
  psl : PSLInfo
deriving DecidableEq

/-- Source `Liftover::compatible` (lines 169-195).  `srcLineStrand` is the
member `_bedLine._strand` (the strand of the input line being processed);
`tgtBed.blocks.getLastD` renders `tgtBed._blocks.back()`. -/
def compatible (srcLineStrand : Char) (tgtBed newBlock : BedLine) : Bool :=
  if tgtBed.strand ≠ newBlock.strand then false
  else if tgtBed.srcStart = newBlock.srcStart then false
  else if (if tgtBed.strand ≠ srcLineStrand then
             (tgtBed.blocks.getLastD ⟨0, 0⟩).start - newBlock.end_
           else
             newBlock.start - ((tgtBed.blocks.getLastD ⟨0, 0⟩).start +
               ((tgtBed.blocks.getLastD ⟨0, 0⟩).length : Int))) < 0 then false
  else if tgtBed.chrName ≠ newBlock.chrName then false
  else true

/-- The `delta` computed by `Liftover::flipBlocks` (line 200):
`blocks[1]._start - (blocks[0]._start + blocks[0]._length)`. -/
def flipDelta (b : BedLine) : Int :=
  (b.blocks.getD 1 ⟨0, 0⟩).start -
    ((b.blocks.getD 0 ⟨0, 0⟩).start + ((b.blocks.getD 0 ⟨0, 0⟩).length : Int))

/-- Source `Liftover::flipBlocks` body for one record (lines 198-233). -/
def flipBed (outPSL : Bool) (b : BedLine) : BedLine :=
  if b.blocks.length > 1 then
    if (if outPSL ≠ true then decide (flipDelta b < 0)
        else (decide (b.strand = '-') && decide (0 ≤ flipDelta b)) ||
             (decide (b.strand ≠ '-') && decide (flipDelta b < 0))) = true then
      { b with blocks := b.blocks.reverse,
               psl := if outPSL = true then
                        { b.psl with qBlockStarts := b.psl.qBlockStarts.reverse }
                      else b.psl }
    else b
  else b

/-- Source `Liftover::flipBlocks` (lines 197-234): each record of the list
is flipped in place. -/
def flipBlocks (outPSL : Bool) (l : List BedLine) : List BedLine :=
  l.map (flipBed outPSL)

/-- The flip condition as worded by the claim: in interval-only output flip
when `delta < 0`; in structured output flip when `(strand == '-' and
delta ≥ 0) or (strand != '-' and delta < 0)`. -/
def flipCond (outPSL : Bool) (b : BedLine) : Bool :=
  if outPSL then
    (decide (b.strand = '-') && decide (0 ≤ flipDelta b)) ||
    (decide (b.strand ≠ '-') && decide (flipDelta b < 0))
  else
    decide (flipDelta b < 0)

/-- Ascending order on blocks.  Modelled from the spec:
`BedBlock::operator<` lives in halBedLine.h outside `src/`; the spec
requires the block list "sorted ascending", i.e. by block start. -/
def blockLE (a b : BedBlock) : Prop := a.start ≤ b.start

instance : DecidableRel blockLE := fun a b => Int.decLe a.start b.start

instance : IsTotal BedBlock blockLE := ⟨fun a b => Int.le_total a.start b.start⟩

instance : IsTrans BedBlock blockLE := ⟨fun _ _ _ h1 h2 => le_trans h1 h2⟩

/-- The `std::sort(_bedLine._blocks.begin(), _bedLine._blocks.end())` call
of `liftBlockIntervals`, modelled as an insertion sort under `blockLE`. -/
def sortBlocks (l : List BedBlock) : List BedBlock := List.insertionSort blockLE l

/-- One iteration of the `liftBlockIntervals` loop (lines 300-306): narrow
the working record to the block's window and, when the window is
non-empty, append the external `liftInterval` results for it.  `lift`
abstracts `Liftover::liftInterval`, which is outside `src/`. -/
def liftStep (lift : BedLine → List BedLine) (orig : BedLine)
    (st : BedLine × List BedLine) (blk : BedBlock) : BedLine × List BedLine :=
  let l1 := { st.1 with start := blk.start + orig.start }
  let l2 := { l1 with end_ := l1.start + (blk.length : Int) }
  if l2.end_ > l2.start then (l2, st.2 ++ lift l2) else (l2, st.2)

/-- Source `Liftover::liftBlockIntervals` (lines 296-309): copy the
record, sort its blocks in place, run the per-block loop, then restore
the original `_start` and `_end`.  The pair holds the final working
record `_bedLine` and the accumulated `_mappedBlocks`. -/
def liftBlockIntervals (lift : BedLine → List BedLine) (line : BedLine)
    (mapped : List BedLine) : BedLine × List BedLine :=
  let sorted := { line with blocks := sortBlocks line.blocks }
  let r := sorted.blocks.foldl (liftStep lift line) (sorted, mapped)
  ({ r.1 with start := line.start, end_ := line.end_ }, r.2)

/-- Concrete record used by witnesses: the last record assembled so far. -/
def c5Tgt : BedLine :=
  { chrName := "chr7", start := 100, end_ := 120, strand := '+', srcStart := 40,
    thickStart := 0, thickEnd := 0, bedType := 12,
    blocks := [⟨100, 20⟩], psl := ⟨0, 0, 0, 0, 0, 0, 0, 0, '+', 0, [40]⟩ }

/-- Concrete record used by witnesses: a candidate new block. -/
def c5New : BedLine :=
  { chrName := "chr7", start := 130, end_ := 145, strand := '+', srcStart := 70,
    thickStart := 0, thickEnd := 0, bedType := 12,
    blocks := [], psl := ⟨0, 0, 0, 0, 0, 0, 0, 0, '+', 0, [70]⟩ }

/-- The session state a `convert` run threads through `visitLine`: the
warned-name set `_missedSet`, the chronological warning lines (identified
by the missing name), and the per-input-record emitted outputs. -/
structure LiftState where
  missedSet : List String
  warnings : List String
  outputs : List (List BedLine)
deriving DecidableEq

/-- Source `Liftover::visitLine` (lines 46-92): its validation prefix.
`genome` abstracts `_srcGenome->getSequence` (name to sequence length,
`none` when the sequence is unknown); `process` abstracts the rest of the
pipeline for a valid line (lift, assembly, cleanup, sort, write) which
depends on the external navigator.  The warned-name set insertion with
once-per-name warning and the early returns are the source's lines 52-70;
a skipped record emits no output lines. -/
def visitLineModel (genome : String → Option Nat) (process : BedLine → List BedLine)
    (st : LiftState) (line : BedLine) : LiftState :=
  match genome line.chrName with
  | none =>
    if line.chrName ∈ st.missedSet then
      { st with outputs := st.outputs ++ [[]] }
    else
      { missedSet := line.chrName :: st.missedSet,
        warnings := st.warnings ++ [line.chrName],
        outputs := st.outputs ++ [[]] }
  | some len =>
    if (len : Int) < line.end_ then { st with outputs := st.outputs ++ [[]] }
    else if 9 < line.bedType ∧ line.blocks = [] then
      { st with outputs := st.outputs ++ [[]] }
    else { st with outputs := st.outputs ++ [process line] }

/-- Modelled from the spec: the scanner feeds the input records one at a
time to `visitLine` (the scan loop is outside `src/`; "the lift-over
engine processes input records one at a time"). -/
def scanModel (genome : String → Option Nat) (process : BedLine → List BedLine)
    (st : LiftState) (lines : List BedLine) : LiftState :=
  lines.foldl (visitLineModel genome process) st

/-- Source `Liftover::convert` (lines 23-41): clears `_missedSet` and
scans the input stream. -/
def convertModel (genome : String → Option Nat) (process : BedLine → List BedLine)
    (lines : List BedLine) : LiftState :=
  scanModel genome process ⟨[], [], []⟩ lines

/-- The output the validation prefix produces for one record; it does not
depend on the warned-name state. -/
def recordOutput (genome : String → Option Nat) (process : BedLine → List BedLine)
    (l : BedLine) : List BedLine :=
  match genome l.chrName with
  | none => []
  | some len =>
    if (len : Int) < l.end_ then []
    else if 9 < l.bedType ∧ l.blocks = [] then []
    else process l

/-- Concrete session pieces for the C9 witness. -/
def c9Genome (n : String) : Option Nat := if n = "chr1" then some 1000 else none

/-- A record referencing the unknown chromosome. -/
def c9LineX : BedLine :=
  { chrName := "chrX", start := 0, end_ := 10, strand := '+', srcStart := 0,
    thickStart := 0, thickEnd := 0, bedType := 3, blocks := [],
    psl := ⟨0, 0, 0, 0, 0, 0, 0, 0, '+', 0, []⟩ }

/-- A record referencing the known chromosome. -/
def c9Line1 : BedLine :=
  { chrName := "chr1", start := 5, end_ := 25, strand := '+', srcStart := 5,
    thickStart := 0, thickEnd := 0, bedType := 3, blocks := [],
    psl := ⟨0, 0, 0, 0, 0, 0, 0, 0, '+', 0, []⟩ }

/-- Input stream for the C9 witness: the unknown name appears twice. -/
def c9Lines : List BedLine := [c9LineX, c9Line1, c9LineX]

/-- Abstracted processing of a valid line for the C9 witness. -/
def c9Process (l : BedLine) : List BedLine := [l]

/-- Source `NULL_INDEX` (halDefs.h, outside `src/`): the sentinel index,
-1. -/
def NULL_INDEX : Int := -1

/-- The source-range end of a mapped block as computed by
`assignBlocksToIntervals` (line 118): `_srcStart + (_end - _start)`. -/
def srcEnd (b : BedLine) : Int := b.srcStart + (b.end_ - b.start)

/-- The per-block update of the last output record
(`assignBlocksToIntervals` lines 127-147): extend the record's window to
the block, push the target-side block, and in structured mode push the
query start and, beyond the first block, accumulate the match counters. -/
def appendBlock (outPSL : Bool) (tgt b : BedLine) : BedLine :=
  let tgt1 := { tgt with start := min tgt.start b.start,
                         end_ := max tgt.end_ b.end_,
                         blocks := tgt.blocks ++ [⟨b.start, (b.end_ - b.start).toNat⟩] }
  if outPSL then
    let psl1 := { tgt1.psl with qBlockStarts := tgt1.psl.qBlockStarts ++ [b.srcStart] }
    let psl2 := if tgt1.blocks.length > 1 then
        { psl1 with matches_ := psl1.matches_ + b.psl.matches_,
                    misMatches := psl1.misMatches + b.psl.misMatches,
                    repMatches := psl1.repMatches + b.psl.repMatches,
                    nCount := psl1.nCount + b.psl.nCount }
      else psl1
    { tgt1 with psl := psl2 }
  else tgt1

/-- The successor half of the `dupe` test (line 120):
`blockNext != end && blockNext->_srcStart < srcBlockEnd`. -/
def succDupe (b : BedLine) (rest : List BedLine) : Bool :=
  match rest with
  | nb :: _ => decide (nb.srcStart < srcEnd b)
  | [] => false

/-- The walk of `assignBlocksToIntervals` (lines 113-148) over the mapped
blocks, already sorted by source start.  `out` is `_outBedLines` in
reverse order (head is `_outBedLines.back()`); `prevEnd` is
`prevSrcBlockEnd` (initially `NULL_INDEX`); the successor lookahead is
`blockNext`.  For each block the walk also records whether a new output
record was started. -/
def assignLoop (outPSL : Bool) (srcLineStrand : Char) :
    Int → List BedLine → List BedLine → List Bool × List BedLine
  | _, out, [] => ([], out)
  | prevEnd, out, b :: rest =>
    let dupe := decide (b.srcStart < prevEnd) || succDupe b rest
    let startNew := out.isEmpty || (outPSL && dupe) ||
      !(compatible srcLineStrand (out.headD b) b)
    let out1 := if startNew then b :: out else out
    let out2 := match out1 with
      | t :: os => appendBlock outPSL t b :: os
      | [] => []
    let r := assignLoop outPSL srcLineStrand (srcEnd b) out2 rest
    (startNew :: r.1, r.2)

/-- The claim's duplicate test: the source-coordinate ranges
`[srcStart, srcEnd)` of two mapped blocks intersect. -/
def overlapsB (a b : BedLine) : Bool :=
  decide (a.srcStart < srcEnd b) && decide (b.srcStart < srcEnd a)

/-- The claim's predecessor duplicate test: overlap with the actual
predecessor in the sorted order, when there is one. -/
def prevDupeSpec (prev : Option BedLine) (b : BedLine) : Bool :=
  match prev with
  | some p => overlapsB p b
  | none => false

/-- The claim's successor duplicate test: overlap with the successor in
the sorted order, when there is one. -/
def succDupeSpec (b : BedLine) (rest : List BedLine) : Bool :=
  match rest with
  | nb :: _ => overlapsB b nb
  | [] => false

/-- The walk as worded by the claim: identical to `assignLoop` except
that a block is a duplicate exactly when its source range overlaps its
predecessor's (`prev`) or its successor's source range in the sorted
order. -/
def assignLoopSpec (outPSL : Bool) (srcLineStrand : Char) :
    Option BedLine → List BedLine → List BedLine → List Bool × List BedLine
  | _, out, [] => ([], out)
  | prev, out, b :: rest =>
    let dupe := prevDupeSpec prev b || succDupeSpec b rest
    let startNew := out.isEmpty || (outPSL && dupe) ||
      !(compatible srcLineStrand (out.headD b) b)
    let out1 := if startNew then b :: out else out
    let out2 := match out1 with
      | t :: os => appendBlock outPSL t b :: os
      | [] => []
    let r := assignLoopSpec outPSL srcLineStrand (some b) out2 rest
    (startNew :: r.1, r.2)

/-- Mapped blocks for the C6 witness: two abutting pieces followed by a
duplicate-range piece. -/
def c6Blocks : List BedLine :=
  [{ chrName := "t", start := 100, end_ := 110, strand := '+', srcStart := 0,
     thickStart := 0, thickEnd := 0, bedType := 12, blocks := [],
     psl := ⟨0, 0, 0, 0, 0, 0, 0, 0, '+', 0, []⟩ },
   { chrName := "t", start := 110, end_ := 120, strand := '+', srcStart := 10,
     thickStart := 0, thickEnd := 0, bedType := 12, blocks := [],
     psl := ⟨0, 0, 0, 0, 0, 0, 0, 0, '+', 0, []⟩ },
   { chrName := "t", start := 200, end_ := 215, strand := '+', srcStart := 15,
     thickStart := 0, thickEnd := 0, bedType := 12, blocks := [],
     psl := ⟨0, 0, 0, 0, 0, 0, 0, 0, '+', 0, []⟩ }]

/-- Adjacent pairs of a list, in order. -/
def pairsOf {α : Type} (l : List α) : List (α × α) := l.zip l.tail

/-- The target-side gap of one adjacent block pair as the source computes
it (`computePSLInserts` lines 256-264): under `-` strand the two block
iterators are swapped before and restored after; the signed difference is
stored into a `hal_size_t`, hence the modulus. -/
def tGap (strand : Char) (bprev bcur : BedBlock) : Nat :=
  (((if strand = '-' then bprev else bcur).start -
     ((if strand = '-' then bcur else bprev).start +
      ((if strand = '-' then bcur else bprev).length : Int))) % (M64 : Int)).toNat

/-- The query-side gap of one adjacent pair (lines 269-283): under
`qStrand = '-'` the query-start iterators and the block iterators are
swapped; a gap that is not non-negative is clamped to zero ("Duplicated
blocks can overlap").  The source compares after the usual arithmetic
conversion to `hal_size_t`; the comparison is modelled on `Int`, which
agrees with it on the non-negative query coordinates the engine
produces. -/
def qGap (qStrand : Char) (bprev bcur : BedBlock) (qprev qcur : Int) : Nat :=
  if (if qStrand = '-' then qcur else qprev) +
      ((if qStrand = '-' then bcur else bprev).length : Int) ≤
      (if qStrand = '-' then qprev else qcur) then
    ((if qStrand = '-' then qprev else qcur) -
      ((if qStrand = '-' then qcur else qprev) +
        ((if qStrand = '-' then bcur else bprev).length : Int))).toNat
  else 0

/-- The accumulator loop of `computePSLInserts` (lines 255-288), walking
blocks and query starts in lockstep from the second element on.  The
quadruple is (qNumInsert, qBaseInsert, tNumInsert, tBaseInsert). -/
def pslLoop (strand qStrand : Char) :
    BedBlock → Int → List BedBlock → List Int →
      Nat × Nat × Nat × Nat → Nat × Nat × Nat × Nat
  | _, _, [], _, acc => acc
  | _, _, _ :: _, [], acc => acc
  | bprev, qprev, bcur :: brest, qcur :: qrest, acc =>
    pslLoop strand qStrand bcur qcur brest qrest
      (acc.1 + (if 0 < qGap qStrand bprev bcur qprev qcur then 1 else 0),
       acc.2.1 + qGap qStrand bprev bcur qprev qcur,
       acc.2.2.1 + (if 0 < tGap strand bprev bcur then 1 else 0),
       acc.2.2.2 + tGap strand bprev bcur)

/-- Source `Liftover::computePSLInserts` body for one record (lines
237-289): zero the four insert counters, then accumulate over adjacent
pairs.  The source walks `_blocks` and `_qBlockStarts` in lockstep (their
lengths are equal, asserted at line 244). -/
def computePSLRecord (b : BedLine) : BedLine :=
  match b.blocks, b.psl.qBlockStarts with
  | b0 :: brest, q0 :: qrest =>
    { b with psl := { b.psl with
        qNumInsert := (pslLoop b.strand b.psl.qStrand b0 q0 brest qrest (0, 0, 0, 0)).1,
        qBaseInsert := (pslLoop b.strand b.psl.qStrand b0 q0 brest qrest (0, 0, 0, 0)).2.1,
        tNumInsert := (pslLoop b.strand b.psl.qStrand b0 q0 brest qrest (0, 0, 0, 0)).2.2.1,
        tBaseInsert := (pslLoop b.strand b.psl.qStrand b0 q0 brest qrest (0, 0, 0, 0)).2.2.2 } }
  | _, _ =>
    { b with psl := { b.psl with
        qNumInsert := 0, qBaseInsert := 0, tNumInsert := 0, tBaseInsert := 0 } }

/-- Source `Liftover::computePSLInserts` (lines 236-290) over the record
list. -/
def computePSLInserts (l : List BedLine) : List BedLine := l.map computePSLRecord

/-- The claim's target-side gaps: adjacent pairs taken in index order,
reversed when the target strand is `-`; gap
`blocks[i].start - (blocks[i-1].start + blocks[i-1].length)`. -/
def tGapsSpec (strand : Char) (bs : List BedBlock) : List Int :=
  (pairsOf (if strand = '-' then bs.reverse else bs)).map
    (fun p => p.2.start - (p.1.start + (p.1.length : Int)))

/-- The claim's query-side gaps, computed from `qBlockStarts` the same
way (swapping under `qStrand = '-'`), with negative or zero gaps clamped
to zero. -/
def qGapsSpec (qStrand : Char) (bs : List BedBlock) (qs : List Int) : List Int :=
  (pairsOf (if qStrand = '-' then (qs.zip bs).reverse else qs.zip bs)).map
    (fun p => max 0 (p.2.1 - (p.1.1 + (p.1.2.length : Int))))

/-- Concrete record of the claim's PSL-insert scenario: two blocks with a
5-base target-side gap and abutting query blocks. -/
def c8Rec : BedLine :=
  { chrName := "t", start := 0, end_ := 30, strand := '+', srcStart := 0,
    thickStart := 0, thickEnd := 0, bedType := 12,
    blocks := [⟨0, 10⟩, ⟨15, 10⟩],
    psl := ⟨20, 0, 0, 0, 0, 0, 0, 0, '+', 20, [0, 10]⟩ }

/-! ## Theorems -/

theorem allocMem_ok (s : MMapState) (size : Nat) (isRoot : Bool) (o : Nat) (s1 : MMapState)
    (h : allocMem s size isRoot = (Except.ok o, s1)) :
    s.writeAccess = true ∧ (s.nextOffset + size) % M64 ≤ s.fileSize ∧ o = s.nextOffset ∧
    s1 = { s with nextOffset := (s.nextOffset + alignRound size) % M64,
                  rootOffset := if isRoot then s.nextOffset else s.rootOffset } := by
  unfold allocMem validateWriteAccess at h
  split at h
  · exact absurd (congrArg Prod.fst h) (by simp)
  · split at h
    · exact absurd (congrArg Prod.fst h) (by simp)
    · refine ⟨by simp_all, by omega, ?_, ?_⟩
      · exact (Prod.mk.injEq _ _ _ _ ▸ h).1 |> Except.ok.inj |> Eq.symm
      · exact ((Prod.mk.injEq _ _ _ _ ▸ h).2).symm

theorem alignRound_facts (size : Nat) (h : size + wordSize ≤ M64) :
    size ≤ alignRound size ∧ alignRound size < size + wordSize ∧
    alignRound size % wordSize = 0 := by
  unfold alignRound wordSize at *
  have hm : (size + 7) % M64 = size + 7 := by
    apply Nat.mod_eq_of_lt
    unfold M64 at *
    omega
  rw [hm]
  have hdm := Nat.div_add_mod (size + 7) 8
  have hlt : (size + 7) % 8 < 8 := Nat.mod_lt _ (by norm_num)
  have hml : (size + 7) / 8 * 8 % 8 = 0 := Nat.mul_mod_left _ _
  omega

/-- C1 counterexample: in a fresh 9-byte write store (aligned initial
`nextOffset = 0`), the calls `allocMem 0`, `allocMem 0`, `allocMem 9` all
succeed and return offsets `[0, 0, 0]` — not strictly increasing — and the
last one has `o + alignRound 9 = 16 > 9 = fileSize`, leaving the header's
`nextOffset` at `16 > fileSize`.  This refutes C1 as stated. -/
theorem c1_counterexample :
    allocSession c1State [(0, false), (0, false), (9, false)] =
      some ([0, 0, 0],
        { basePtr := 0, nextOffset := 16, rootOffset := 0, fileSize := 9,
          writeAccess := true }) ∧
    c1State.nextOffset % wordSize = 0 ∧
    ¬ List.Chain' (fun a b => a < b) [0, 0, 0] ∧
    ¬ (0 + alignRound 9 ≤ c1State.fileSize) ∧
    ¬ (16 ≤ c1State.fileSize) := by
  refine ⟨by decide, by decide, ?_, by decide, by decide⟩
  simp [List.chain'_cons]

theorem alloc_session_aux (calls : List (Nat × Bool)) :
    ∀ (s : MMapState) (os : List Nat) (sf : MMapState),
    allocSession s calls = some (os, sf) →
    s.nextOffset % wordSize = 0 →
    s.nextOffset ≤ s.fileSize + (wordSize - 1) →
    (∀ c ∈ calls, s.fileSize + c.1 + wordSize ≤ M64) →
    (∀ c ∈ calls, 1 ≤ c.1) →
    List.Chain' (fun a b => a < b) os ∧
    (∀ o ∈ os, o % wordSize = 0) ∧
    (∀ p ∈ os.zip calls, p.1 + p.2.1 ≤ s.fileSize) ∧
    (∀ o ∈ os, s.nextOffset ≤ o) ∧
    sf.fileSize = s.fileSize ∧
    sf.nextOffset ≤ s.fileSize + (wordSize - 1) := by
  induction calls with
  | nil =>
    intro s os sf hrun _ hinit _ _
    unfold allocSession at hrun
    have h1 : os = [] ∧ sf = s := by
      have := Option.some.inj hrun
      exact ⟨(Prod.mk.injEq _ _ _ _ ▸ this).1.symm, (Prod.mk.injEq _ _ _ _ ▸ this).2.symm⟩
    rcases h1 with ⟨h1, h2⟩
    subst h1; subst h2
    simp [hinit]
  | cons c cs ih =>
    intro s os sf hrun halign hinit hfit hpos
    rcases hac : allocMem s c.1 c.2 with ⟨res, s1⟩
    cases res with
    | error e => simp [allocSession, hac] at hrun
    | ok o =>
      simp only [allocSession, hac] at hrun
      rcases hrec : allocSession s1 cs with _ | ⟨os', sf'⟩ <;>
        rw [hrec] at hrun <;> simp only [Option.map_some', Option.map_none'] at hrun
      · exact absurd hrun (by simp)
      · simp only [Option.some.injEq, Prod.mk.injEq] at hrun
        rcases hrun with ⟨hos, hsf⟩
        subst hsf
        obtain ⟨hw, hchk, ho, hs1⟩ := allocMem_ok s c.1 c.2 o s1 hac
        have hfitc := hfit c (by simp)
        have hposc := hpos c (by simp)
        have hnm : s.nextOffset + c.1 < M64 := by
          unfold wordSize at *
          omega
        rw [Nat.mod_eq_of_lt hnm] at hchk
        obtain ⟨har1, har2, har3⟩ := alignRound_facts c.1 (by unfold wordSize at *; omega)
        have hn1 : s.nextOffset + alignRound c.1 < M64 := by
          unfold wordSize at *
          omega
        have hs1n : s1.nextOffset = s.nextOffset + alignRound c.1 := by
          rw [hs1, Nat.mod_eq_of_lt hn1]
        have hs1f : s1.fileSize = s.fileSize := by rw [hs1]
        have hs1a : s1.nextOffset % wordSize = 0 := by
          rw [hs1n]
          unfold wordSize at *
          omega
        have hs1i : s1.nextOffset ≤ s1.fileSize + (wordSize - 1) := by
          rw [hs1n, hs1f]
          unfold wordSize at *
          omega
        obtain ⟨ih1, ih2, ih3, ih4, ih5, ih6⟩ :=
          ih s1 os' sf' hrec hs1a hs1i
            (by intro d hd; rw [hs1f]; exact hfit d (by simp [hd]))
            (by intro d hd; exact hpos d (by simp [hd]))
        subst hos
        subst ho
        refine ⟨?_, ?_, ?_, ?_, by rw [ih5, hs1f], by rw [← hs1f]; exact ih6⟩
        · rw [List.chain'_cons']
          refine ⟨?_, ih1⟩
          intro y hy
          have hy' : y ∈ os' := by
            cases os' with
            | nil => simp at hy
            | cons a t => simp at hy; simp [hy]
          have := ih4 y hy'
          rw [hs1n] at this
          unfold wordSize at *
          omega
        · intro o ho
          rcases List.mem_cons.mp ho with h | h
          · subst h; exact halign
          · exact ih2 o h
        · intro p hp
          rw [List.zip_cons_cons] at hp
          rcases List.mem_cons.mp hp with h | h
          · rw [h]
            exact hchk
          · have := ih3 p h
            rw [hs1f] at this
            exact this
        · intro o ho
          rcases List.mem_cons.mp ho with h | h
          · subst h
            exact Nat.le_refl _
          · have := ih4 o h
            rw [hs1n] at this
            omega

/-- C1 (amended): in any `allocMem` session whose calls all succeed, with
the initial `nextOffset` word-aligned and within the file, every requested
size positive, and sizes within `size_t` range, the returned offsets are
strictly increasing and word-aligned, and each offset `o` for request `n`
satisfies `o + n ≤ fileSize`.  The original bound `o + alignRound n ≤
fileSize` does not hold (see the counterexample); instead the header's
`nextOffset` can exceed `fileSize` by at most `wordSize - 1`. -/
theorem alloc_session_offsets (s : MMapState) (calls : List (Nat × Bool))
    (os : List Nat) (sf : MMapState)
    (hrun : allocSession s calls = some (os, sf))
    (halign : s.nextOffset % wordSize = 0)
    (hinit : s.nextOffset ≤ s.fileSize)
    (hfit : ∀ c ∈ calls, s.fileSize + c.1 + wordSize ≤ M64)
    (hpos : ∀ c ∈ calls, 1 ≤ c.1) :
    List.Chain' (fun a b => a < b) os ∧
    (∀ o ∈ os, o % wordSize = 0) ∧
    (∀ p ∈ os.zip calls, p.1 + p.2.1 ≤ s.fileSize) ∧
    sf.nextOffset ≤ s.fileSize + (wordSize - 1) := by
  obtain ⟨h1, h2, h3, _, _, h6⟩ :=
    alloc_session_aux calls s os sf hrun halign (by unfold wordSize; omega) hfit hpos
  exact ⟨h1, h2, h3, h6⟩

/-- Witness for the amended C1 at a concrete session. -/
theorem alloc_session_offsets_witness :
    List.Chain' (fun a b => a < b) [0, 8] ∧
    (∀ o ∈ [0, 8], o % wordSize = 0) ∧
    (∀ p ∈ List.zip [0, 8] [(8, false), (4, false)], p.1 + p.2.1 ≤ wState.fileSize) ∧
    (16 : Nat) ≤ wState.fileSize + (wordSize - 1) := by
  have h := alloc_session_offsets wState [(8, false), (4, false)] [0, 8]
    { basePtr := 0, nextOffset := 16, rootOffset := 0, fileSize := 32, writeAccess := true }
    (by decide) (by decide) (by decide)
    (by intro c hc; fin_cases hc <;> decide)
    (by intro c hc; fin_cases hc <;> decide)
  exact ⟨h.1, h.2.1, h.2.2.1, h.2.2.2⟩

/-- C2: in write mode (and within `size_t` range), `allocMem` fails with the
capacity error exactly when `nextOffset + size > fileSize`, leaving the
header unchanged; otherwise it returns the pre-advance `nextOffset`,
advances `nextOffset` by exactly `alignRound size` — the least word
multiple ≥ `size` — and records the returned offset in `rootOffset` when
`isRoot` is set. -/
theorem allocMem_contract (s : MMapState) (size : Nat) (isRoot : Bool)
    (hw : s.writeAccess = true)
    (hfit : s.nextOffset + size + wordSize ≤ M64) :
    (s.fileSize < s.nextOffset + size →
      allocMem s size isRoot =
        (Except.error ("mmap file is full, specify file size larger than " ++
          toString s.fileSize), s)) ∧
    (s.nextOffset + size ≤ s.fileSize →
      allocMem s size isRoot =
        (Except.ok s.nextOffset,
         { s with nextOffset := s.nextOffset + alignRound size,
                  rootOffset := if isRoot then s.nextOffset else s.rootOffset })) ∧
    size ≤ alignRound size ∧ alignRound size < size + wordSize ∧
    alignRound size % wordSize = 0 := by
  obtain ⟨har1, har2, har3⟩ := alignRound_facts size (by unfold wordSize at *; omega)
  have hnm : s.nextOffset + size < M64 := by unfold wordSize at *; omega
  have hn1 : s.nextOffset + alignRound size < M64 := by unfold wordSize at *; omega
  refine ⟨?_, ?_, har1, har2, har3⟩
  · intro hover
    unfold allocMem validateWriteAccess
    rw [hw]
    simp only [Bool.true_eq_false, if_false]
    rw [Nat.mod_eq_of_lt hnm]
    rw [if_pos (by omega)]
  · intro hok
    unfold allocMem validateWriteAccess
    rw [hw]
    simp only [Bool.true_eq_false, if_false]
    rw [Nat.mod_eq_of_lt hnm]
    rw [if_neg (by omega), Nat.mod_eq_of_lt hn1]

/-- Witness for C2 at a concrete store and request. -/
theorem allocMem_contract_witness :
    ((wState.fileSize < wState.nextOffset + 5 →
      allocMem wState 5 true =
        (Except.error ("mmap file is full, specify file size larger than " ++
          toString wState.fileSize), wState)) ∧
    (wState.nextOffset + 5 ≤ wState.fileSize →
      allocMem wState 5 true =
        (Except.ok wState.nextOffset,
         { wState with nextOffset := wState.nextOffset + alignRound 5,
                       rootOffset := if true then wState.nextOffset else wState.rootOffset })) ∧
    5 ≤ alignRound 5 ∧ alignRound 5 < 5 + wordSize ∧
    alignRound 5 % wordSize = 0) ∧ wState.writeAccess = true ∧
    wState.nextOffset + 5 + wordSize ≤ M64 :=
  ⟨allocMem_contract wState 5 true (by decide) (by decide), by decide, by decide⟩

/-- C3 counterexample: with the root registered by a first
`allocMem(8, isRoot := true)` (returning offset 8 and setting
`rootOffset = 8`), a second `allocMem(8, isRoot := true)` succeeds and
changes `rootOffset` to 16: the root offset is not stable under further
`allocMem` calls. -/
theorem c3_counterexample :
    (allocMem c3State 8 true).1.toOption = some 8 ∧
    (allocMem c3State 8 true).2.rootOffset = 8 ∧
    ((allocMem (allocMem c3State 8 true).2 8 true).1.toOption = some 16) ∧
    ((allocMem (allocMem c3State 8 true).2 8 true).2.rootOffset = 16) ∧
    (16 : Nat) ≠ 8 := by decide

/-- C3 (amended): across any successful `allocMem` session, the final
`rootOffset` is the offset returned by the last call made with
`isRoot = true`, or the initial `rootOffset` (0 for a fresh file) if no
such call was made.  In particular calls with `isRoot = false` never
change it, but a later `isRoot = true` call overwrites it. -/
theorem alloc_session_rootOffset (s : MMapState) (calls : List (Nat × Bool))
    (os : List Nat) (sf : MMapState)
    (hrun : allocSession s calls = some (os, sf)) :
    sf.rootOffset = lastRoot s.rootOffset (os.zip (calls.map Prod.snd)) := by
  induction calls generalizing s os with
  | nil =>
    unfold allocSession at hrun
    have := Option.some.inj hrun
    have h1 : os = [] := (Prod.mk.injEq _ _ _ _ ▸ this).1.symm
    have h2 : sf = s := (Prod.mk.injEq _ _ _ _ ▸ this).2.symm
    subst h1; subst h2
    rfl
  | cons c cs ih =>
    rcases hac : allocMem s c.1 c.2 with ⟨res, s1⟩
    cases res with
    | error e => simp [allocSession, hac] at hrun
    | ok o =>
      simp only [allocSession, hac] at hrun
      rcases hrec : allocSession s1 cs with _ | ⟨os', sf'⟩ <;>
        rw [hrec] at hrun <;> simp only [Option.map_some', Option.map_none'] at hrun
      · exact absurd hrun (by simp)
      · simp only [Option.some.injEq, Prod.mk.injEq] at hrun
        rcases hrun with ⟨hos, hsf⟩
        subst hsf
        obtain ⟨_, _, ho, hs1⟩ := allocMem_ok s c.1 c.2 o s1 hac
        have := ih s1 os' hrec
        subst hos
        simp only [List.map_cons, List.zip_cons_cons]
        unfold lastRoot at *
        simp only [List.foldl_cons]
        rw [this, hs1]
        subst ho
        rfl

/-- Witness for the amended C3 at a concrete session. -/
theorem alloc_session_rootOffset_witness :
    ((allocSession wState [(8, true), (8, false), (8, true), (8, false)]).map
      (fun r => r.2.rootOffset) = some 16) ∧
    (allocSession wState [(8, true), (8, false), (8, true), (8, false)] =
      some ([0, 8, 16, 24],
        { basePtr := 0, nextOffset := 32, rootOffset := 16, fileSize := 32,
          writeAccess := true })) ∧
    lastRoot wState.rootOffset
      (List.zip [0, 8, 16, 24] [true, false, true, false]) = 16 := by
  have hrun : allocSession wState [(8, true), (8, false), (8, true), (8, false)] =
      some ([0, 8, 16, 24],
        { basePtr := 0, nextOffset := 32, rootOffset := 16, fileSize := 32,
          writeAccess := true }) := by decide
  have h := alloc_session_rootOffset wState [(8, true), (8, false), (8, true), (8, false)]
    [0, 8, 16, 24]
    { basePtr := 0, nextOffset := 32, rootOffset := 16, fileSize := 32, writeAccess := true }
    hrun
  exact ⟨by rw [hrun]; exact congrArg some h, hrun, h ▸ (by decide)⟩

/-- C4 counterexample: with `nextOffset = 8`, the call `toPtr 100 4`
violates the claimed precondition `offset < nextOffset`, yet the source's
`toPtr` performs no check and yields the mapped address, while the claimed
checked behaviour would reject it. -/
theorem c4_counterexample :
    c4State.nextOffset ≤ 100 ∧
    toPtr c4State 100 4 = some 4196 ∧
    toPtrClaimed c4State 100 4 = none := by decide

/-- C4 (amended): `toPtr` never checks its offset — it returns the mapped
address `basePtr + offset` for every input, so a violation of the
`offset < nextOffset` precondition goes undetected; the only debug
assertion is in `getRootOffset`, which rejects exactly a zero (null)
stored root offset. -/
theorem toPtr_unchecked (s : MMapState) (offset accessSize : Nat) :
    toPtr s offset accessSize = some (s.basePtr + offset) ∧
    (getRootOffset s = none ↔ s.rootOffset = 0) := by
  refine ⟨rfl, ?_⟩
  unfold getRootOffset
  by_cases h : s.rootOffset > 0
  · rw [if_pos h]
    constructor
    · intro hc
      exact (Option.some_ne_none _ hc).elim
    · intro hc
      omega
  · rw [if_neg h]
    constructor
    · intro _
      omega
    · intro _
      rfl

/-- C5: under the precondition `newBlock.srcStart ≥ lastRecord.srcStart`
(and a non-empty block list on the last record, needed for
`_blocks.back()`), `compatible` returns true iff the strands agree, the
source start is strictly larger, the chromosomes agree, and the
strand-dependent target-side gap is non-negative. -/
theorem compatible_iff (srcLineStrand : Char) (tgtBed newBlock : BedLine)
    (hpre : tgtBed.srcStart ≤ newBlock.srcStart) (_hblocks : tgtBed.blocks ≠ []) :
    compatible srcLineStrand tgtBed newBlock = true ↔
      (tgtBed.strand = newBlock.strand ∧
       tgtBed.srcStart < newBlock.srcStart ∧
       tgtBed.chrName = newBlock.chrName ∧
       0 ≤ (if tgtBed.strand ≠ srcLineStrand then
              (tgtBed.blocks.getLastD ⟨0, 0⟩).start - newBlock.end_
            else
              newBlock.start - ((tgtBed.blocks.getLastD ⟨0, 0⟩).start +
                ((tgtBed.blocks.getLastD ⟨0, 0⟩).length : Int)))) := by
  unfold compatible
  split_ifs with h1 h2 h3 h4 <;>
    constructor <;> intro h <;> simp_all <;> omega

/-- Witness for C5 at concrete records. -/
theorem compatible_iff_witness :
    c5Tgt.srcStart ≤ c5New.srcStart ∧ c5Tgt.blocks ≠ [] ∧
    (compatible '+' c5Tgt c5New = true ↔
      (c5Tgt.strand = c5New.strand ∧
       c5Tgt.srcStart < c5New.srcStart ∧
       c5Tgt.chrName = c5New.chrName ∧
       0 ≤ (if c5Tgt.strand ≠ '+' then
              (c5Tgt.blocks.getLastD ⟨0, 0⟩).start - c5New.end_
            else
              c5New.start - ((c5Tgt.blocks.getLastD ⟨0, 0⟩).start +
                ((c5Tgt.blocks.getLastD ⟨0, 0⟩).length : Int))))) :=
  ⟨by decide, by decide, compatible_iff '+' c5Tgt c5New (by decide) (by decide)⟩

/-- C7: `flipBed` reverses a record's block list exactly when the record
has at least 2 blocks and the claim's flip condition holds, additionally
reversing the query-block-start list exactly in structured output, and
changes nothing else; in particular records with fewer than 2 blocks are
unchanged. -/
theorem flipBed_spec (outPSL : Bool) (b : BedLine) :
    flipBed outPSL b =
      if 2 ≤ b.blocks.length ∧ flipCond outPSL b = true then
        { b with blocks := b.blocks.reverse,
                 psl := if outPSL = true then
                          { b.psl with qBlockStarts := b.psl.qBlockStarts.reverse }
                        else b.psl }
      else b := by
  rcases Nat.lt_or_ge 1 b.blocks.length with h | h
  · have h2 : 2 ≤ b.blocks.length := h
    cases outPSL <;>
      · unfold flipBed flipCond
        rw [if_pos h]
        split_ifs <;> simp_all <;>
          (exfalso; by_cases hs : b.strand = '-' <;> simp_all <;> omega)
  · have h2 : ¬ (2 ≤ b.blocks.length) := by omega
    unfold flipBed flipCond
    rw [if_neg (by omega), if_neg (by simp [h2])]

theorem liftStep_fst (lift : BedLine → List BedLine) (orig : BedLine)
    (st : BedLine × List BedLine) (blk : BedBlock) :
    (liftStep lift orig st blk).1 =
      { st.1 with start := blk.start + orig.start,
                  end_ := blk.start + orig.start + (blk.length : Int) } := by
  unfold liftStep
  dsimp only
  split <;> rfl

theorem liftFold_scalar (lift : BedLine → List BedLine) (orig : BedLine)
    (bs : List BedBlock) :
    ∀ st : BedLine × List BedLine, ∃ a e,
      (bs.foldl (liftStep lift orig) st).1 = { st.1 with start := a, end_ := e } := by
  induction bs with
  | nil =>
    intro st
    exact ⟨st.1.start, st.1.end_, rfl⟩
  | cons blk bs ih =>
    intro st
    obtain ⟨a, e, hfold⟩ := ih (liftStep lift orig st blk)
    refine ⟨a, e, ?_⟩
    rw [List.foldl_cons, hfold, liftStep_fst]

/-- C10: after `liftBlockIntervals` the working record has its original
`_start` and `_end` back and every other scalar field untouched; the only
changed field is the block list, which has been sorted ascending in place
and is left sorted (the original order is not restored). -/
theorem liftBlockIntervals_frame (lift : BedLine → List BedLine) (line : BedLine)
    (mapped : List BedLine) :
    (liftBlockIntervals lift line mapped).1 =
      { line with blocks := sortBlocks line.blocks } ∧
    List.Sorted blockLE (liftBlockIntervals lift line mapped).1.blocks := by
  have h1 : (liftBlockIntervals lift line mapped).1 =
      { line with blocks := sortBlocks line.blocks } := by
    obtain ⟨a, e, hfold⟩ := liftFold_scalar lift line (sortBlocks line.blocks)
      ({ line with blocks := sortBlocks line.blocks }, mapped)
    simp only [liftBlockIntervals]
    rw [hfold]
  refine ⟨h1, ?_⟩
  rw [h1]
  exact List.sorted_insertionSort blockLE line.blocks

theorem visitLine_outputs (genome : String → Option Nat)
    (process : BedLine → List BedLine) (st : LiftState) (l : BedLine) :
    (visitLineModel genome process st l).outputs =
      st.outputs ++ [recordOutput genome process l] := by
  unfold visitLineModel recordOutput
  rcases genome l.chrName with _ | len <;> simp only [] <;> split_ifs <;> rfl

theorem scan_outputs (genome : String → Option Nat)
    (process : BedLine → List BedLine) (lines : List BedLine) :
    ∀ st, (scanModel genome process st lines).outputs =
      st.outputs ++ lines.map (recordOutput genome process) := by
  induction lines with
  | nil =>
    intro st
    simp [scanModel]
  | cons l ls ih =>
    intro st
    unfold scanModel at *
    rw [List.foldl_cons, ih, visitLine_outputs, List.map_cons, List.append_assoc,
      List.singleton_append]

theorem scan_warn_aux (genome : String → Option Nat)
    (process : BedLine → List BedLine) (w : String) (lines : List BedLine) :
    ∀ st : LiftState,
      ((scanModel genome process st lines).warnings.count w =
        st.warnings.count w +
          (if w ∉ st.missedSet ∧ genome w = none ∧ ∃ l ∈ lines, l.chrName = w
           then 1 else 0)) ∧
      (w ∈ (scanModel genome process st lines).missedSet ↔
        w ∈ st.missedSet ∨ (genome w = none ∧ ∃ l ∈ lines, l.chrName = w)) := by
  induction lines with
  | nil =>
    intro st
    simp [scanModel]
  | cons l ls ih =>
    intro st
    unfold scanModel at *
    rw [List.foldl_cons]
    obtain ⟨ih1, ih2⟩ := ih (visitLineModel genome process st l)
    have hstep :
        ((visitLineModel genome process st l).warnings =
            if genome l.chrName = none ∧ l.chrName ∉ st.missedSet then
              st.warnings ++ [l.chrName] else st.warnings) ∧
        ((visitLineModel genome process st l).missedSet =
            if genome l.chrName = none ∧ l.chrName ∉ st.missedSet then
              l.chrName :: st.missedSet else st.missedSet) := by
      unfold visitLineModel
      rcases genome l.chrName with _ | len
      · by_cases hmem : l.chrName ∈ st.missedSet <;> simp [hmem]
      · split_ifs <;> simp_all <;> (refine ⟨?_, ?_⟩ <;> split <;> rfl)
    rw [hstep.1, hstep.2] at ih1
    rw [hstep.2] at ih2
    constructor
    · rw [ih1]
      by_cases hlw : l.chrName = w
      · subst hlw
        by_cases hg : genome l.chrName = none <;>
          by_cases hmem : l.chrName ∈ st.missedSet <;>
            simp [hg, hmem, List.count_append, List.exists_mem_cons_iff]
      · have hlw' : ¬ (w = l.chrName) := fun hh => hlw hh.symm
        by_cases hg : genome l.chrName = none <;>
          by_cases hmem : l.chrName ∈ st.missedSet <;>
            simp [hg, hmem, hlw, hlw', List.count_append, List.count_cons,
              List.exists_mem_cons_iff, List.mem_cons]
    · rw [ih2]
      by_cases hlw : l.chrName = w
      · subst hlw
        by_cases hg : genome l.chrName = none <;>
          by_cases hmem : l.chrName ∈ st.missedSet <;>
            · simp [hg, hmem, List.exists_mem_cons_iff, List.mem_cons]
              try tauto
      · have hlw' : ¬ (w = l.chrName) := fun hh => hlw hh.symm
        by_cases hg : genome l.chrName = none <;>
          by_cases hmem : l.chrName ∈ st.missedSet <;>
            · simp [hg, hmem, hlw, hlw', List.exists_mem_cons_iff, List.mem_cons]
              try tauto

/-- C9: in a convert session, a chromosome name `w` unknown to the source
genome is warned about exactly once if some input record references it
(and never otherwise), every record referencing it produces zero output
records, and every record is processed (the outputs are exactly the
per-record outputs, in input order). -/
theorem convert_missing_chrom (genome : String → Option Nat)
    (process : BedLine → List BedLine) (lines : List BedLine) (w : String)
    (hmiss : genome w = none) :
    (convertModel genome process lines).warnings.count w =
      (if ∃ l ∈ lines, l.chrName = w then 1 else 0) ∧
    (convertModel genome process lines).outputs =
      lines.map (recordOutput genome process) ∧
    (∀ l ∈ lines, l.chrName = w → recordOutput genome process l = []) := by
  refine ⟨?_, ?_, ?_⟩
  · have h := (scan_warn_aux genome process w lines ⟨[], [], []⟩).1
    simpa [convertModel, hmiss] using h
  · have h := scan_outputs genome process lines ⟨[], [], []⟩
    simpa [convertModel] using h
  · intro l hl hw
    unfold recordOutput
    rw [hw, hmiss]

/-- Witness for C9 at a concrete session with a twice-referenced unknown
chromosome. -/
theorem convert_missing_chrom_witness :
    (convertModel c9Genome c9Process c9Lines).warnings.count "chrX" =
      (if ∃ l ∈ c9Lines, l.chrName = "chrX" then 1 else 0) ∧
    (convertModel c9Genome c9Process c9Lines).outputs =
      c9Lines.map (recordOutput c9Genome c9Process) ∧
    (∀ l ∈ c9Lines, l.chrName = "chrX" →
      recordOutput c9Genome c9Process l = []) :=
  convert_missing_chrom c9Genome c9Process c9Lines "chrX" (by decide)

theorem assign_aux (outPSL : Bool) (srcLineStrand : Char) (bs : List BedLine) :
    ∀ (prev : Option BedLine) (prevEnd : Int),
    List.Chain' (fun a b => a.srcStart ≤ b.srcStart) bs →
    (∀ b ∈ bs, b.start < b.end_) →
    (∀ b ∈ bs, 0 ≤ b.srcStart) →
    (prev = none → prevEnd = NULL_INDEX) →
    (∀ p, prev = some p → prevEnd = srcEnd p ∧
      (∀ nb ∈ bs.head?, p.srcStart ≤ nb.srcStart)) →
    ∀ out, assignLoop outPSL srcLineStrand prevEnd out bs =
      assignLoopSpec outPSL srcLineStrand prev out bs := by
  induction bs with
  | nil =>
    intro prev prevEnd _ _ _ _ _ out
    cases prev <;> rfl
  | cons b rest ih =>
    intro prev prevEnd hsort hpos hnn hpnone hpsome out
    have hblen : b.start < b.end_ := hpos b (by simp)
    have hbnn : 0 ≤ b.srcStart := hnn b (by simp)
    have hbse : b.srcStart < srcEnd b := by
      unfold srcEnd
      omega
    have hsucc : succDupe b rest = succDupeSpec b rest := by
      cases rest with
      | nil => rfl
      | cons nb rest2 =>
        have h1 : b.srcStart ≤ nb.srcStart := (List.chain'_cons.mp hsort).1
        have h2 : b.srcStart < srcEnd nb := by
          have := hpos nb (by simp)
          unfold srcEnd at *
          omega
        unfold succDupe succDupeSpec overlapsB
        simp [h2]
    have hrest := ih (some b) (srcEnd b) hsort.tail
      (fun x hx => hpos x (List.mem_cons_of_mem _ hx))
      (fun x hx => hnn x (List.mem_cons_of_mem _ hx))
      (fun hh => nomatch hh)
      (fun p hp => by
        cases hp
        refine ⟨rfl, ?_⟩
        intro nb hnb
        cases rest with
        | nil => simp at hnb
        | cons x rest2 =>
          simp only [List.head?_cons, Option.mem_def, Option.some.injEq] at hnb
          subst hnb
          exact (List.chain'_cons.mp hsort).1)
    rcases prev with _ | p
    · have hdupe : (decide (b.srcStart < prevEnd) : Bool) = prevDupeSpec none b := by
        rw [hpnone rfl]
        unfold NULL_INDEX prevDupeSpec
        simp only [decide_eq_false_iff_not, not_lt]
        omega
      simp only [assignLoop, assignLoopSpec, hdupe, hsucc, hrest]
    · obtain ⟨hpe, hple⟩ := hpsome p rfl
      have h1 : p.srcStart ≤ b.srcStart := hple b (by simp)
      have h2 : p.srcStart < srcEnd b := lt_of_le_of_lt h1 hbse
      have hdupe : (decide (b.srcStart < prevEnd) : Bool) = prevDupeSpec (some p) b := by
        rw [hpe]
        unfold prevDupeSpec overlapsB
        simp [h2]
      simp only [assignLoop, assignLoopSpec, hdupe, hsucc, hrest]

/-- C6: over mapped blocks sorted ascending by source start (with
non-empty target windows and non-negative source starts), the
`assignBlocksToIntervals` walk starts a new output record exactly as the
claim words it: when there is no output record yet, or structured output
is on and the block's source range overlaps its predecessor's or
successor's source range in the sorted order, or the block is not
`compatible` with the last output record — and otherwise appends to the
last record; the decision trace and the assembled records coincide with
the claim's walk. -/
theorem assign_decisions (outPSL : Bool) (srcLineStrand : Char) (bs : List BedLine)
    (hsort : List.Chain' (fun a b => a.srcStart ≤ b.srcStart) bs)
    (hpos : ∀ b ∈ bs, b.start < b.end_)
    (hnn : ∀ b ∈ bs, 0 ≤ b.srcStart) :
    assignLoop outPSL srcLineStrand NULL_INDEX [] bs =
      assignLoopSpec outPSL srcLineStrand none [] bs :=
  assign_aux outPSL srcLineStrand bs none NULL_INDEX hsort hpos hnn
    (fun _ => rfl) (fun _ hp => nomatch hp) []

/-- Witness for C6 at a concrete sorted block list. -/
theorem assign_decisions_witness :
    assignLoop true '+' NULL_INDEX [] c6Blocks =
      assignLoopSpec true '+' none [] c6Blocks :=
  assign_decisions true '+' c6Blocks
    (by simp [c6Blocks, List.chain'_cons]) (by decide) (by decide)

theorem pairsOf_append_last {α : Type} (a : α) (l : List α) :
    pairsOf (l ++ [a]) = pairsOf l ++ (l.getLast?.toList.map (fun x => (x, a))) := by
  induction l with
  | nil => rfl
  | cons x xs ih =>
    cases xs with
    | nil => rfl
    | cons y ys =>
      have h1 : pairsOf (x :: y :: (ys ++ [a])) = (x, y) :: pairsOf (y :: (ys ++ [a])) := rfl
      have h2 : pairsOf (x :: y :: ys) = (x, y) :: pairsOf (y :: ys) := rfl
      simp only [List.cons_append]
      rw [h1]
      have h3 : y :: (ys ++ [a]) = (y :: ys) ++ [a] := rfl
      rw [h3, ih, h2, List.getLast?_cons_cons, List.cons_append]

theorem pairsOf_reverse_map {α β : Type} (f : α × α → β) (l : List α) :
    (pairsOf l.reverse).map f =
      ((pairsOf l).map (fun p => f (p.2, p.1))).reverse := by
  induction l with
  | nil => rfl
  | cons x t ih =>
    rw [List.reverse_cons, pairsOf_append_last, List.map_append, ih,
      List.getLast?_reverse]
    cases t with
    | nil => rfl
    | cons y t2 =>
      have h2 : pairsOf (x :: y :: t2) = (x, y) :: pairsOf (y :: t2) := rfl
      rw [h2]
      simp

theorem countP_rev {α : Type} (p : α → Bool) (l : List α) :
    l.reverse.countP p = l.countP p := by
  induction l with
  | nil => rfl
  | cons a t ih =>
    rw [List.reverse_cons, List.countP_append, List.countP_cons, ih,
      List.countP_cons, List.countP_nil]
    omega

theorem pslLoop_spec (strand qStrand : Char) (brest : List BedBlock) :
    ∀ (b0 : BedBlock) (q0 : Int) (qrest : List Int) (acc : Nat × Nat × Nat × Nat),
    brest.length = qrest.length →
    pslLoop strand qStrand b0 q0 brest qrest acc =
      (acc.1 + ((pairsOf ((q0 :: qrest).zip (b0 :: brest))).map
          (fun p => qGap qStrand p.1.2 p.2.2 p.1.1 p.2.1)).countP (fun g => decide (0 < g)),
       acc.2.1 + ((pairsOf ((q0 :: qrest).zip (b0 :: brest))).map
          (fun p => qGap qStrand p.1.2 p.2.2 p.1.1 p.2.1)).sum,
       acc.2.2.1 + ((pairsOf (b0 :: brest)).map
          (fun p => tGap strand p.1 p.2)).countP (fun g => decide (0 < g)),
       acc.2.2.2 + ((pairsOf (b0 :: brest)).map (fun p => tGap strand p.1 p.2)).sum) := by
  induction brest with
  | nil =>
    intro b0 q0 qrest acc hlen
    have hq : qrest = [] := List.length_eq_zero.mp hlen.symm
    subst hq
    show acc = _
    have h1 : pairsOf ((q0 :: []).zip (b0 :: [])) = [] := rfl
    have h2 : pairsOf (b0 :: ([] : List BedBlock)) = [] := rfl
    rw [h1, h2]
    simp
  | cons b1 brest' ih =>
    intro b0 q0 qrest acc hlen
    cases qrest with
    | nil => simp at hlen
    | cons q1 qrest' =>
      have hlen' : brest'.length = qrest'.length := by simpa using hlen
      show pslLoop strand qStrand b1 q1 brest' qrest' _ = _
      rw [ih b1 q1 qrest' _ hlen']
      have hp1 : pairsOf (b0 :: b1 :: brest') = (b0, b1) :: pairsOf (b1 :: brest') := rfl
      have hp2 : pairsOf ((q0 :: q1 :: qrest').zip (b0 :: b1 :: brest')) =
          ((q0, b0), (q1, b1)) :: pairsOf ((q1 :: qrest').zip (b1 :: brest')) := rfl
      rw [hp1, hp2]
      simp only [List.map_cons, List.countP_cons, List.sum_cons, Prod.mk.injEq,
        decide_eq_true_eq]
      refine ⟨?_, ?_, ?_, ?_⟩ <;> omega

theorem countP_map_toNat_pos (L : List Int) :
    (L.map Int.toNat).countP (fun g => decide (0 < g)) =
      L.countP (fun d => decide (0 < d)) := by
  induction L with
  | nil => rfl
  | cons d t ih =>
    have hd : (0 < d.toNat) ↔ (0 < d) := by omega
    rw [List.map_cons, List.countP_cons, List.countP_cons, ih,
      decide_eq_decide.mpr hd]

theorem gaps_run_core (L : List Int) (hb : ∀ d ∈ L, 0 ≤ d ∧ d < (M64 : Int)) :
    L.map (fun d => (d % (M64 : Int)).toNat) = L.map Int.toNat := by
  apply List.map_congr_left
  intro d hd
  rw [Int.emod_eq_of_lt (hb d hd).1 (hb d hd).2]

theorem tGaps_run (strand : Char) (bs : List BedBlock)
    (ht : ∀ d ∈ tGapsSpec strand bs, 0 ≤ d ∧ d < (M64 : Int)) :
    ((pairsOf bs).map (fun p => tGap strand p.1 p.2)).countP (fun g => decide (0 < g)) =
      (tGapsSpec strand bs).countP (fun d => decide (0 < d)) ∧
    ((pairsOf bs).map (fun p => tGap strand p.1 p.2)).sum =
      ((tGapsSpec strand bs).map Int.toNat).sum := by
  by_cases hs : strand = '-'
  · have hspec : tGapsSpec strand bs =
        ((pairsOf bs).map
          (fun p => p.1.start - (p.2.start + (p.2.length : Int)))).reverse := by
      unfold tGapsSpec
      rw [if_pos hs, pairsOf_reverse_map]
    have hb : ∀ d ∈ (pairsOf bs).map
        (fun p => p.1.start - (p.2.start + (p.2.length : Int))),
        0 ≤ d ∧ d < (M64 : Int) := by
      intro d hd
      exact ht d (by rw [hspec, List.mem_reverse]; exact hd)
    have hrun : (pairsOf bs).map (fun p => tGap strand p.1 p.2) =
        ((pairsOf bs).map
          (fun p => p.1.start - (p.2.start + (p.2.length : Int)))).map
          (fun d => (d % (M64 : Int)).toNat) := by
      rw [List.map_map]
      apply List.map_congr_left
      intro p _
      simp [tGap, hs]
    rw [hrun, gaps_run_core _ hb, hspec]
    constructor
    · rw [countP_map_toNat_pos, countP_rev]
    · rw [List.map_reverse, List.sum_reverse]
  · have hspec : tGapsSpec strand bs =
        (pairsOf bs).map (fun p => p.2.start - (p.1.start + (p.1.length : Int))) := by
      unfold tGapsSpec
      rw [if_neg hs]
    have hb : ∀ d ∈ (pairsOf bs).map
        (fun p => p.2.start - (p.1.start + (p.1.length : Int))),
        0 ≤ d ∧ d < (M64 : Int) := by
      intro d hd
      exact ht d (by rw [hspec]; exact hd)
    have hrun : (pairsOf bs).map (fun p => tGap strand p.1 p.2) =
        ((pairsOf bs).map
          (fun p => p.2.start - (p.1.start + (p.1.length : Int)))).map
          (fun d => (d % (M64 : Int)).toNat) := by
      rw [List.map_map]
      apply List.map_congr_left
      intro p _
      simp [tGap, hs]
    rw [hrun, gaps_run_core _ hb, hspec]
    exact ⟨countP_map_toNat_pos _, rfl⟩

theorem qGap_eq (qStrand : Char) (bprev bcur : BedBlock) (qprev qcur : Int) :
    qGap qStrand bprev bcur qprev qcur =
      (max 0 ((if qStrand = '-' then qprev else qcur) -
        ((if qStrand = '-' then qcur else qprev) +
          ((if qStrand = '-' then bcur else bprev).length : Int)))).toNat := by
  unfold qGap
  by_cases h : (if qStrand = '-' then qcur else qprev) +
      ((if qStrand = '-' then bcur else bprev).length : Int) ≤
      (if qStrand = '-' then qprev else qcur)
  · rw [if_pos h, max_eq_right (by omega)]
  · rw [if_neg h, max_eq_left (by omega)]
    rfl

theorem qGaps_run (qStrand : Char) (bs : List BedBlock) (qs : List Int) :
    ((pairsOf (qs.zip bs)).map
        (fun p => qGap qStrand p.1.2 p.2.2 p.1.1 p.2.1)).countP
        (fun g => decide (0 < g)) =
      (qGapsSpec qStrand bs qs).countP (fun d => decide (0 < d)) ∧
    ((pairsOf (qs.zip bs)).map
        (fun p => qGap qStrand p.1.2 p.2.2 p.1.1 p.2.1)).sum =
      ((qGapsSpec qStrand bs qs).map Int.toNat).sum := by
  by_cases hq : qStrand = '-'
  · have hspec : qGapsSpec qStrand bs qs =
        ((pairsOf (qs.zip bs)).map
          (fun p => max 0 (p.1.1 - (p.2.1 + (p.2.2.length : Int))))).reverse := by
      unfold qGapsSpec
      rw [if_pos hq, pairsOf_reverse_map]
    have hrun : (pairsOf (qs.zip bs)).map
        (fun p => qGap qStrand p.1.2 p.2.2 p.1.1 p.2.1) =
        ((pairsOf (qs.zip bs)).map
          (fun p => max 0 (p.1.1 - (p.2.1 + (p.2.2.length : Int))))).map Int.toNat := by
      rw [List.map_map]
      apply List.map_congr_left
      intro p _
      rw [qGap_eq]
      simp [hq]
    rw [hrun, hspec]
    constructor
    · rw [countP_map_toNat_pos, countP_rev]
    · rw [List.map_reverse, List.sum_reverse]
  · have hspec : qGapsSpec qStrand bs qs =
        (pairsOf (qs.zip bs)).map
          (fun p => max 0 (p.2.1 - (p.1.1 + (p.1.2.length : Int)))) := by
      unfold qGapsSpec
      rw [if_neg hq]
    have hrun : (pairsOf (qs.zip bs)).map
        (fun p => qGap qStrand p.1.2 p.2.2 p.1.1 p.2.1) =
        ((pairsOf (qs.zip bs)).map
          (fun p => max 0 (p.2.1 - (p.1.1 + (p.1.2.length : Int))))).map Int.toNat := by
      rw [List.map_map]
      apply List.map_congr_left
      intro p _
      rw [qGap_eq]
      simp [hq]
    rw [hrun, hspec]
    exact ⟨countP_map_toNat_pos _, rfl⟩

/-- C8: for a structured-mode record (block list and query-start list of
equal length; target-side gaps within the asserted sane range),
`computePSLInserts` sets `tNumInsert` to the number of adjacent pairs —
taken in reversed index order under `-` strand — with positive
target-side gap, `tBaseInsert` to the sum of those gaps, and the
query-side counters likewise from `qBlockStarts` (swapped under `qStrand
= '-'`), with non-positive query gaps clamped to zero. -/
theorem computePSL_spec (b : BedLine)
    (hlen : b.blocks.length = b.psl.qBlockStarts.length)
    (ht : ∀ d ∈ tGapsSpec b.strand b.blocks, 0 ≤ d ∧ d < (M64 : Int)) :
    (computePSLRecord b).psl.tNumInsert =
      (tGapsSpec b.strand b.blocks).countP (fun d => decide (0 < d)) ∧
    (computePSLRecord b).psl.tBaseInsert =
      ((tGapsSpec b.strand b.blocks).map Int.toNat).sum ∧
    (computePSLRecord b).psl.qNumInsert =
      (qGapsSpec b.psl.qStrand b.blocks b.psl.qBlockStarts).countP
        (fun d => decide (0 < d)) ∧
    (computePSLRecord b).psl.qBaseInsert =
      ((qGapsSpec b.psl.qStrand b.blocks b.psl.qBlockStarts).map Int.toNat).sum := by
  rcases hb : b.blocks with _ | ⟨b0, brest⟩
  · have hc : computePSLRecord b =
        { b with psl := { b.psl with
            qNumInsert := 0, qBaseInsert := 0, tNumInsert := 0, tBaseInsert := 0 } } := by
      unfold computePSLRecord
      rw [hb]
    rw [hc, hb]
    rcases hqs : b.psl.qBlockStarts with _ | ⟨q0, qrest⟩ <;>
      simp [tGapsSpec, qGapsSpec, pairsOf]
  · rcases hqs : b.psl.qBlockStarts with _ | ⟨q0, qrest⟩
    · rw [hb, hqs] at hlen
      simp at hlen
    · have hlen' : brest.length = qrest.length := by
        rw [hb, hqs] at hlen
        simpa using hlen
      have hc : computePSLRecord b =
          { b with psl := { b.psl with
              qNumInsert :=
                (pslLoop b.strand b.psl.qStrand b0 q0 brest qrest (0, 0, 0, 0)).1,
              qBaseInsert :=
                (pslLoop b.strand b.psl.qStrand b0 q0 brest qrest (0, 0, 0, 0)).2.1,
              tNumInsert :=
                (pslLoop b.strand b.psl.qStrand b0 q0 brest qrest (0, 0, 0, 0)).2.2.1,
              tBaseInsert :=
                (pslLoop b.strand b.psl.qStrand b0 q0 brest qrest (0, 0, 0, 0)).2.2.2 } } := by
        unfold computePSLRecord
        rw [hb, hqs]
      rw [hb] at ht
      obtain ⟨ht1, ht2⟩ := tGaps_run b.strand (b0 :: brest) ht
      obtain ⟨hq1, hq2⟩ := qGaps_run b.psl.qStrand (b0 :: brest) (q0 :: qrest)
      have hL := pslLoop_spec b.strand b.psl.qStrand brest b0 q0 qrest (0, 0, 0, 0) hlen'
      refine ⟨?_, ?_, ?_, ?_⟩
      · rw [hc]
        dsimp only
        rw [hL]
        dsimp only
        rw [Nat.zero_add]
        exact ht1
      · rw [hc]
        dsimp only
        rw [hL]
        dsimp only
        rw [Nat.zero_add]
        exact ht2
      · rw [hc]
        dsimp only
        rw [hL]
        dsimp only
        rw [Nat.zero_add]
        exact hq1
      · rw [hc]
        dsimp only
        rw [hL]
        dsimp only
        rw [Nat.zero_add]
        exact hq2

/-- Witness for C8: the claim's scenario computes `tNumInsert = 1`,
`tBaseInsert = 5`, `qNumInsert = 0`, `qBaseInsert = 0`. -/
theorem computePSL_spec_witness :
    (computePSLRecord c8Rec).psl.tNumInsert = 1 ∧
    (computePSLRecord c8Rec).psl.tBaseInsert = 5 ∧
    (computePSLRecord c8Rec).psl.qNumInsert = 0 ∧
    (computePSLRecord c8Rec).psl.qBaseInsert = 0 := by
  obtain ⟨h1, h2, h3, h4⟩ := computePSL_spec c8Rec (by decide) (by decide)
  exact ⟨h1.trans (by decide), h2.trans (by decide),
    h3.trans (by decide), h4.trans (by decide)⟩

end Hal
